import Mathlib

/-!
# transform_maybe : a lazy map-and-filter view

Shallow embedding of `include/tl/transform_maybe.hpp`.

* A source range is seen through its iterators.  A position is the number of
  increments from `ranges::begin`; `deref` is `*it` and is `none` where the
  iterator may not be dereferenced (past-the-end); `endPos` is the position of
  `ranges::end`, `none` for a sentinel that never compares equal (such as the
  one of `std::views::iota(0)`).
* Every operation returns an `Exec`: the positions it dereferenced and handed
  to the mapping function, oldest first, and how it finished.  Dereferencing a
  position that may not be dereferenced, or reading an empty cache, is
  undefined behaviour and ends the run with `Outcome.undefined`.
* Loops are run with fuel; `Outcome.timeout` means the fuel ran out.
-/

namespace tl

/-- How a run of a piece of the program finished. -/
inductive Outcome (σ : Type) where
  | ok (s : σ)
  | undefined
  | timeout

/-- Result of a run: the source positions dereferenced and passed to the mapping
function, oldest first, and the way the run finished. -/
structure Exec (σ : Type) where
  calls : List Nat
  result : Outcome σ

/-- Sequencing of two runs: the second one starts from the value the first one
finished with; undefined behaviour and exhausted fuel end the sequence. -/
def Exec.bind {σ τ : Type} (x : Exec σ) (f : σ → Exec τ) : Exec τ :=
  match x.result with
  | .ok s => ⟨x.calls ++ (f s).calls, (f s).result⟩
  | .undefined => ⟨x.calls, .undefined⟩
  | .timeout => ⟨x.calls, .timeout⟩

/-- The source range `V`, seen through its iterators. -/
structure Range (α : Type) where
  /-- `*it` at a position; `none` where the iterator is not dereferenceable. -/
  deref : Nat → Option α
  /-- Position of `std::ranges::end`; `none` when it is never reached. -/
  endPos : Option Nat
  /-- `std::ranges::common_range<V>`. -/
  common : Bool

/-- Comparison `it == std::ranges::end(base_)` for the iterator at position `i`. -/
def Range.isEnd {α : Type} (r : Range α) (i : Nat) : Bool :=
  r.endPos == some i

/-- A finite multi-pass common range such as `std::vector`. -/
def Range.ofList {α : Type} (S : List α) : Range α :=
  ⟨fun i => S[i]?, some S.length, true⟩

/-- An unbounded range such as `std::views::iota(0)`: every position can be
dereferenced and the sentinel is never reached. -/
def Range.ofStream {α : Type} (s : Nat → α) : Range α :=
  ⟨fun i => some (s i), none, false⟩

/-- The class `transform_maybe_view<V, F>`: members `base_` and `func_`. -/
structure transform_maybe_view (α β : Type) where
  base_ : Range α
  func_ : α → Option β

/-- The struct `transform_maybe_view::cursor`: members `current_`, `parent_`
and `cache_`. -/
structure cursor (α β : Type) where
  current_ : Nat
  parent_ : transform_maybe_view α β
  cache_ : Option β

/-- The struct `basic_sentinel<V, Const>`: it holds the end of the source,
member `end_`. -/
structure basic_sentinel where
  end_ : Option Nat

variable {α β : Type}

/-- The expression `std::invoke(*parent_->func_, *current_)` with `current_` at
position `i`. -/
def invoke (v : transform_maybe_view α β) (i : Nat) : Exec (Option β) :=
  match v.base_.deref i with
  | none => ⟨[i], .undefined⟩
  | some a => ⟨[i], .ok (v.func_ a)⟩

/-- The `while (!result && current_ != end) { ++current_; result = invoke }`
loop of the begin constructor, entered with `current_ = cur`. -/
def cursor.beginLoop (v : transform_maybe_view α β) :
    Nat → Nat → Option β → Exec (cursor α β)
  | 0, _, _ => ⟨[], .timeout⟩
  | fuel + 1, cur, result =>
    if result.isNone && !(v.base_.isEnd cur) then
      (invoke v (cur + 1)).bind (fun r => cursor.beginLoop v fuel (cur + 1) r)
    else
      ⟨[], .ok ⟨cur, v, result⟩⟩

/-- The constructor `cursor(begin_tag_t, parent)`: the mapping function is
invoked on `*current_` first, then the loop runs, then the result is moved into
the cache. -/
def cursor.mk_begin (fuel : Nat) (v : transform_maybe_view α β) : Exec (cursor α β) :=
  (invoke v 0).bind (fun r => cursor.beginLoop v fuel 0 r)

/-- The constructor `cursor(end_tag_t, parent)`, which exists when the end of
the source is an iterator; the cache is default-constructed. -/
def cursor.mk_end (v : transform_maybe_view α β) : Option (cursor α β) :=
  v.base_.endPos.map (fun e => ⟨e, v, none⟩)

/-- The member `read()`: `return *cache_;`.  The cursor is returned as well so
that what `read()` leaves of it can be stated. -/
def cursor.read (c : cursor α β) : Exec (β × cursor α β) :=
  match c.cache_ with
  | some b => ⟨[], .ok (b, c)⟩
  | none => ⟨[], .undefined⟩

/-- The `do { ++current_; if (current_ == end) return; result = invoke; }
while (!result);` loop of `next()`, entered with `current_ = cur`. -/
def cursor.nextLoop (c : cursor α β) : Nat → Nat → Exec (cursor α β)
  | 0, _ => ⟨[], .timeout⟩
  | fuel + 1, cur =>
    if c.parent_.base_.isEnd (cur + 1) then
      ⟨[], .ok ⟨cur + 1, c.parent_, c.cache_⟩⟩
    else
      (invoke c.parent_ (cur + 1)).bind (fun result =>
        if result.isNone then cursor.nextLoop c fuel (cur + 1)
        else ⟨[], .ok ⟨cur + 1, c.parent_, result⟩⟩)

/-- The member `next()`. -/
def cursor.next (fuel : Nat) (c : cursor α β) : Exec (cursor α β) :=
  cursor.nextLoop c fuel c.current_

/-- The member `equal(cursor const&)`. -/
def cursor.equal (c s : cursor α β) : Bool :=
  c.current_ == s.current_

/-- The member `equal(basic_sentinel const&)`. -/
def cursor.equal_sentinel (c : cursor α β) (s : basic_sentinel) : Bool :=
  s.end_ == some c.current_

/-- The member `begin()`. -/
def transform_maybe_view.begin (fuel : Nat) (v : transform_maybe_view α β) :
    Exec (cursor α β) :=
  cursor.mk_begin fuel v

/-- The member `end()`: a cursor built with `end_tag` when the source is a
common range, a `basic_sentinel` holding the end of the source otherwise. -/
def transform_maybe_view.end_ (v : transform_maybe_view α β) :
    cursor α β ⊕ basic_sentinel :=
  match v.base_.common, cursor.mk_end v with
  | true, some e => .inl e
  | _, _ => .inr ⟨v.base_.endPos⟩

/-- Comparison of an iterator with what `end()` returned: `equal` on the cursor
or on the sentinel. -/
def cursor.equalEnd (c : cursor α β) : cursor α β ⊕ basic_sentinel → Bool
  | .inl e => c.equal e
  | .inr s => c.equal_sentinel s

/-- Modelled from the spec: `basic_iterator.hpp` is not among the sources; it
is the generic cursor-driven iterator whose dereference is `read()`, whose
increment is `next()` and whose comparison is `equal()`.  This is the loop
`for (it = begin; it != end; ++it) out.push_back(*it)` from the iterator over
`c`; the first argument bounds the number of elements produced. -/
def cursor.collect (fuel : Nat) : Nat → cursor α β → Exec (List β)
  | 0, _ => ⟨[], .timeout⟩
  | k + 1, c =>
    if c.equalEnd c.parent_.end_ then ⟨[], .ok []⟩
    else
      c.read.bind (fun r =>
        (cursor.next fuel r.2).bind (fun c1 =>
          (cursor.collect fuel k c1).bind (fun out => ⟨[], .ok (r.1 :: out)⟩)))

/-- One traversal of the view from `begin()` until the iterator equals `end()`,
collecting what is read. -/
def transform_maybe_view.traverse (fuel : Nat) (v : transform_maybe_view α β) :
    Exec (List β) :=
  (v.begin fuel).bind (fun c => cursor.collect fuel fuel c)

/-- The loop of `std::views::take(count)` over the view, from the iterator over
`c`: it stops when the count is used up or the iterator equals `end()`;
otherwise it reads, then increments the iterator and decrements the count. -/
def cursor.takeLoop (fuel : Nat) : Nat → cursor α β → Exec (List β)
  | 0, _ => ⟨[], .ok []⟩
  | count + 1, c =>
    if c.equalEnd c.parent_.end_ then ⟨[], .ok []⟩
    else
      c.read.bind (fun r =>
        (cursor.next fuel r.2).bind (fun c1 =>
          (cursor.takeLoop fuel count c1).bind (fun out => ⟨[], .ok (r.1 :: out)⟩)))

/-- Traversal of `view | std::views::take(count)`. -/
def transform_maybe_view.take (fuel count : Nat) (v : transform_maybe_view α β) :
    Exec (List β) :=
  (v.begin fuel).bind (fun c => cursor.takeLoop fuel count c)

/-- Calling `next()` a number of times in a row. -/
def cursor.nextN (fuel : Nat) : Nat → cursor α β → Exec (cursor α β)
  | 0, c => ⟨[], .ok c⟩
  | k + 1, c => (cursor.next fuel c).bind (fun c1 => cursor.nextN fuel k c1)

/-- Calling `read()` a number of times in a row, with no `next()` in between:
the values read, oldest first, and the cursor afterwards. -/
def cursor.readN : Nat → cursor α β → Exec (List β × cursor α β)
  | 0, c => ⟨[], .ok ([], c)⟩
  | k + 1, c =>
    c.read.bind (fun r =>
      (cursor.readN k r.2).bind (fun rest => ⟨[], .ok (r.1 :: rest.1, rest.2)⟩))

/-- The cursors a traversal can hold: the one built by `begin()` and those
obtained from it by calls of `next()`. -/
inductive Reachable (v : transform_maybe_view α β) : cursor α β → Prop where
  | begin (fuel : Nat) (c : cursor α β) :
      (v.begin fuel).result = .ok c → Reachable v c
  | next (fuel : Nat) (c c1 : cursor α β) :
      Reachable v c → (cursor.next fuel c).result = .ok c1 → Reachable v c1

namespace views

/-- The call operator `transform_maybe_fn_base::operator()(R&& r, F f)`. -/
def transform_maybe_fn_base (r : Range α) (f : α → Option β) : transform_maybe_view α β :=
  ⟨r, f⟩

end views

/-- Modelled from the spec: `functional/bind.hpp` is not among the sources;
`bind_back` binds the trailing argument of a two-argument callable. -/
def bind_back {A B C : Type} (g : A → B → C) (b : B) : A → C :=
  fun a => g a b

/-- Modelled from the spec: `functional/pipeable.hpp` is not among the sources;
`pipeable` wraps a one-argument callable so that a source can be piped into it. -/
structure pipeable (A C : Type) where
  fn : A → C

/-- Modelled from the spec: the pipe operator `r | p` of `pipeable` calls the
wrapped callable with the source on its left. -/
def pipeable.pipe {A C : Type} (r : A) (p : pipeable A C) : C :=
  p.fn r

namespace views

/-- The call operator `transform_maybe_fn::operator()(F f)`:
`pipeable(bind_back(transform_maybe_fn_base{}, std::move(f)))`. -/
def transform_maybe_fn (f : α → Option β) : pipeable (Range α) (transform_maybe_view α β) :=
  ⟨bind_back transform_maybe_fn_base f⟩

end views

/-- The mapping function of the worked example: present iff even, mapped to
half the value. -/
def halfEven (x : Nat) : Option Nat :=
  if x % 2 = 0 then some (x / 2) else none

/-- What holds of every cursor of a traversal: it points to its view, and it is
at the end of the source or its cache holds the mapped result of the element
under it. -/
def cursor.Valid (v : transform_maybe_view α β) (c : cursor α β) : Prop :=
  c.parent_ = v ∧
    (v.base_.isEnd c.current_ = true ∨
      ∃ a b, v.base_.deref c.current_ = some a ∧ v.func_ a = some b ∧ c.cache_ = some b)

/-- The converting constructor `cursor(cursor<!Const> i)`: `current_` is moved
from `i.current_` and `parent_` is `i.parent_`; `cache_` is not in the
initializer list, so it is default-constructed, that is empty. -/
def cursor.mk_const (i : cursor α β) : cursor α β :=
  ⟨i.current_, i.parent_, none⟩

/-- The source `base_` together with the part of its state that iterating it
changes.  A multi-pass source (a forward range such as `std::vector`) can be
iterated any number of times.  A single-pass source (an input range such as
`std::ranges::istream_view`) hands out each element once: `extracted` counts the
elements already taken out of it. -/
structure Source (α : Type) where
  items : List α
  single_pass : Bool
  extracted : Nat

/-- The call `std::ranges::begin(base_)`: the position of the iterator returned
and the source afterwards.  On a multi-pass source it is the first position and
the source is unchanged; on a single-pass source it takes out the next element
not yet extracted. -/
def Source.begin (s : Source α) : Nat × Source α :=
  if s.single_pass then (s.extracted, ⟨s.items, true, s.extracted + 1⟩) else (0, s)

/-- The increment `++current_` of the iterator at position `i`: the new position
and the source afterwards; on a single-pass source it takes out one more
element. -/
def Source.incr (s : Source α) (i : Nat) : Nat × Source α :=
  if s.single_pass then (i + 1, ⟨s.items, true, s.extracted + 1⟩) else (i + 1, s)

/-- The view that owns the source `s` and the mapping function `F`, as the
cursor functions see it: positions are counted from the first element. -/
def Source.view (s : Source α) (F : α → Option β) : transform_maybe_view α β :=
  ⟨Range.ofList s.items, F⟩

/-- The loop of the begin constructor with the state of the source passed along:
`while (!result && current_ != end) { ++current_; result = invoke }`, entered
with `current_ = cur`. -/
def cursor.beginLoop_st (F : α → Option β) :
    Nat → Source α → Nat → Option β → Exec (cursor α β × Source α)
  | 0, _, _, _ => ⟨[], .timeout⟩
  | fuel + 1, s, cur, result =>
    if result.isNone && !((s.view F).base_.isEnd cur) then
      (invoke (s.view F) (s.incr cur).1).bind
        (fun r => cursor.beginLoop_st F fuel (s.incr cur).2 (s.incr cur).1 r)
    else
      ⟨[], .ok (⟨cur, s.view F, result⟩, s)⟩

/-- The constructor `cursor(begin_tag_t, parent)` with the state of the source
passed along: `current_` is initialised with `std::ranges::begin(parent->base_)`,
the mapping function is invoked on `*current_`, then the loop runs.  The run
finishes with the cursor built and the source as the constructor left it. -/
def cursor.mk_begin_st (fuel : Nat) (F : α → Option β) (s : Source α) :
    Exec (cursor α β × Source α) :=
  (invoke (s.view F) s.begin.1).bind
    (fun r => cursor.beginLoop_st F fuel s.begin.2 s.begin.1 r)

/-- Two calls of `begin()` in a row on one view, nothing else touching the view
in between: the second call finds the source as the first call left it.  The run
finishes with both cursors and the source afterwards. -/
def transform_maybe_view.begin_twice_st (fuel : Nat) (F : α → Option β) (s : Source α) :
    Exec ((cursor α β × cursor α β) × Source α) :=
  (cursor.mk_begin_st fuel F s).bind (fun r1 =>
    (cursor.mk_begin_st fuel F r1.2).bind (fun r2 => ⟨[], .ok ((r1.1, r2.1), r2.2)⟩))

/-- Applying a function to the value a run finished with. -/
def Exec.map {σ τ : Type} (f : σ → τ) (x : Exec σ) : Exec τ :=
  match x.result with
  | .ok s => ⟨x.calls, .ok (f s)⟩
  | .undefined => ⟨x.calls, .undefined⟩
  | .timeout => ⟨x.calls, .timeout⟩

/-- The cursor `c` with its back-reference pointing to the view `w`. -/
def cursor.reparent (w : transform_maybe_view α β) (c : cursor α β) : cursor α β :=
  ⟨c.current_, w, c.cache_⟩

/-- The member `begin() const`: `basic_iterator{cursor<true>(begin_tag, this)}`.
The cursor template has one body for both values of `Const`; with `Const = true`
the view it is built from is the view over the source `const V`. -/
def transform_maybe_view.begin_const (fuel : Nat) (v : transform_maybe_view α β) :
    Exec (cursor α β) :=
  cursor.mk_begin fuel v

/-- The member `end() const`: a `cursor<true>` built with `end_tag` when
`const V` is a common range, a `basic_sentinel<V, true>` holding the end of the
source otherwise. -/
def transform_maybe_view.end_const (v : transform_maybe_view α β) :
    cursor α β ⊕ basic_sentinel :=
  match v.base_.common, cursor.mk_end v with
  | true, some e => .inl e
  | _, _ => .inr ⟨v.base_.endPos⟩

/-- Modelled from the spec: `basic_iterator.hpp` is not among the sources.  The
loop `for (it = begin; it != e; ++it) out.push_back(*it)` from the iterator over
`c`, with the end `e` evaluated once before the loop; the second argument bounds
the number of elements produced. -/
def cursor.collectTo (e : cursor α β ⊕ basic_sentinel) (fuel : Nat) :
    Nat → cursor α β → Exec (List β)
  | 0, _ => ⟨[], .timeout⟩
  | k + 1, c =>
    if c.equalEnd e then ⟨[], .ok []⟩
    else
      c.read.bind (fun r =>
        (cursor.next fuel r.2).bind (fun c1 =>
          (cursor.collectTo e fuel k c1).bind (fun out => ⟨[], .ok (r.1 :: out)⟩)))

/-- One traversal of the view through `begin() const` and `end() const`. -/
def transform_maybe_view.traverse_const (fuel : Nat) (v : transform_maybe_view α β) :
    Exec (List β) :=
  (v.begin_const fuel).bind (fun c => cursor.collectTo v.end_const fuel fuel c)

/-- Writing through an alias of the source element at address `r`: that element
is replaced, in place, by `g` applied to it; every other element is left as it
is. -/
def poke {A : Type} (g : A → A) (r : Nat) (S : List A) : List A :=
  match S[r]? with
  | some x => S.set r (g x)
  | none => S

/-- Modelled from the spec: `basic_iterator.hpp` is not among the sources; its
iterator dereferences with `read()`, increments with `next()` and compares with
`equal()`.  This is the caller's loop `for (auto&& x : view) mutate(x);` over a
view of a source whose elements are objects with identity.  The source is the list `S`; position
`i` holds the object at address `i`, and `*it` at position `i` is the reference
to it, modelled as the pair of the address and the value stored there when it is
dereferenced (`S.enum`).  A value produced by `read()` that aliases a source
element is the address of that element, and `mutate` writes through it (`poke`).
The cursor keeps pointing to the same view, whose source now holds the updated
elements. -/
def cursor.mutateLoop {A : Type} (F : Nat × A → Option Nat) (g : A → A) (fuel : Nat) :
    Nat → List A → cursor (Nat × A) Nat → Exec (List A)
  | 0, _, _ => ⟨[], .timeout⟩
  | k + 1, S, c =>
    if c.equalEnd c.parent_.end_ then ⟨[], .ok S⟩
    else
      c.read.bind (fun r =>
        (cursor.next fuel
            ⟨r.2.current_, ⟨Range.ofList (poke g r.1 S).enum, F⟩, r.2.cache_⟩).bind
          (fun c1 => cursor.mutateLoop F g fuel k (poke g r.1 S) c1))

/-- One mutating traversal of the view over the source `S`, from `begin()`; the
run finishes with the source as the traversal left it. -/
def transform_maybe_view.mutateAll {A : Type} (F : Nat × A → Option Nat) (g : A → A)
    (fuel : Nat) (S : List A) : Exec (List A) :=
  (transform_maybe_view.begin fuel ⟨Range.ofList S.enum, F⟩).bind
    (fun c => cursor.mutateLoop F g fuel fuel S c)

/-- A mutating traversal followed by a second, reading traversal of the view
over the source as the first one left it. -/
def transform_maybe_view.mutateThenTraverse {A : Type} (F : Nat × A → Option Nat)
    (g : A → A) (fuel : Nat) (S : List A) : Exec (List Nat) :=
  (transform_maybe_view.mutateAll F g fuel S).bind
    (fun S1 => transform_maybe_view.traverse fuel ⟨Range.ofList S1.enum, F⟩)

/-- A mapping function that aliases the element it is given: present iff the
value is even, and the present value is the address of the element. -/
def aliasEven (e : Nat × Nat) : Option Nat :=
  if e.2 % 2 = 0 then some e.1 else none

/-! ## Runs and their sequencing -/

theorem Exec.bind_ok {σ τ : Type} (x : Exec σ) (f : σ → Exec τ) (s : σ)
    (h : x.result = .ok s) : x.bind f = ⟨x.calls ++ (f s).calls, (f s).result⟩ := by
  unfold Exec.bind
  rw [h]

theorem Exec.bind_mk_ok {σ τ : Type} (l : List Nat) (s : σ) (f : σ → Exec τ) :
    Exec.bind ⟨l, .ok s⟩ f = ⟨l ++ (f s).calls, (f s).result⟩ := rfl

theorem Exec.bind_mk_undefined {σ τ : Type} (l : List Nat) (f : σ → Exec τ) :
    Exec.bind ⟨l, .undefined⟩ f = ⟨l, .undefined⟩ := rfl

theorem Exec.bind_mk_timeout {σ τ : Type} (l : List Nat) (f : σ → Exec τ) :
    Exec.bind ⟨l, .timeout⟩ f = ⟨l, .timeout⟩ := rfl

theorem Exec.bind_result_ok {σ τ : Type} {x : Exec σ} {f : σ → Exec τ} {t : τ}
    (h : (x.bind f).result = .ok t) :
    ∃ s, x.result = .ok s ∧ (f s).result = .ok t := by
  unfold Exec.bind at h
  cases hx : x.result with
  | ok s => rw [hx] at h; exact ⟨s, rfl, h⟩
  | undefined => rw [hx] at h; cases h
  | timeout => rw [hx] at h; cases h

theorem invoke_some (v : transform_maybe_view α β) (i : Nat) (a : α)
    (h : v.base_.deref i = some a) : invoke v i = ⟨[i], .ok (v.func_ a)⟩ := by
  unfold invoke
  rw [h]

theorem invoke_none (v : transform_maybe_view α β) (i : Nat)
    (h : v.base_.deref i = none) : invoke v i = ⟨[i], .undefined⟩ := by
  unfold invoke
  rw [h]

theorem invoke_result_ok {v : transform_maybe_view α β} {i : Nat} {r : Option β}
    (h : (invoke v i).result = .ok r) :
    ∃ a, v.base_.deref i = some a ∧ v.func_ a = r := by
  unfold invoke at h
  cases hd : v.base_.deref i with
  | none => rw [hd] at h; cases h
  | some a =>
    rw [hd] at h
    injection h with h
    exact ⟨a, rfl, h⟩

theorem cursor.nextLoop_found (c : cursor α β) (q : Nat) (a : α) (b : β)
    (hq : c.parent_.base_.deref q = some a) (hb : c.parent_.func_ a = some b) :
    ∀ (fuel cur : Nat), cur < q → q - cur ≤ fuel →
      (∀ j, cur < j → j ≤ q → c.parent_.base_.isEnd j = false) →
      (∀ j, cur < j → j < q →
        ∃ x, c.parent_.base_.deref j = some x ∧ c.parent_.func_ x = none) →
      cursor.nextLoop c fuel cur
        = ⟨List.range' (cur + 1) (q - cur), .ok ⟨q, c.parent_, some b⟩⟩ := by
  intro fuel
  induction fuel with
  | zero => intro cur h1 h2; omega
  | succ fuel ih =>
    intro cur h1 h2 hend habs
    unfold cursor.nextLoop
    rw [hend (cur + 1) (by omega) (by omega)]
    by_cases hlast : cur + 1 = q
    · subst hlast
      rw [invoke_some _ _ a hq, hb]
      simp [Exec.bind]
    · obtain ⟨x, hx, hfx⟩ := habs (cur + 1) (by omega) (by omega)
      rw [invoke_some _ _ x hx, hfx]
      have := ih (cur + 1) (by omega) (by omega)
        (fun j hj1 hj2 => hend j (by omega) hj2)
        (fun j hj1 hj2 => habs j (by omega) hj2)
      simp only [Exec.bind_mk_ok, Option.isNone_none, if_true, this]
      have e : q - cur = (q - (cur + 1)) + 1 := by omega
      rw [e, List.range'_succ]
      simp

theorem cursor.nextLoop_end (c : cursor α β) (q : Nat)
    (hq : c.parent_.base_.isEnd q = true) :
    ∀ (fuel cur : Nat), cur < q → q - cur ≤ fuel →
      (∀ j, cur < j → j < q → c.parent_.base_.isEnd j = false) →
      (∀ j, cur < j → j < q →
        ∃ x, c.parent_.base_.deref j = some x ∧ c.parent_.func_ x = none) →
      cursor.nextLoop c fuel cur
        = ⟨List.range' (cur + 1) (q - cur - 1), .ok ⟨q, c.parent_, c.cache_⟩⟩ := by
  intro fuel
  induction fuel with
  | zero => intro cur h1 h2; omega
  | succ fuel ih =>
    intro cur h1 h2 hend habs
    unfold cursor.nextLoop
    by_cases hlast : cur + 1 = q
    · subst hlast
      rw [hq]
      simp
    · rw [hend (cur + 1) (by omega) (by omega)]
      obtain ⟨x, hx, hfx⟩ := habs (cur + 1) (by omega) (by omega)
      rw [invoke_some _ _ x hx, hfx]
      have := ih (cur + 1) (by omega) (by omega)
        (fun j hj1 hj2 => hend j (by omega) hj2)
        (fun j hj1 hj2 => habs j (by omega) hj2)
      simp only [Exec.bind_mk_ok, Option.isNone_none, if_true, this]
      have e : q - cur - 1 = (q - (cur + 1) - 1) + 1 := by omega
      rw [e, List.range'_succ]
      simp

/-! ## The begin constructor -/

theorem cursor.beginLoop_present (v : transform_maybe_view α β) (fuel cur : Nat) (b : β) :
    cursor.beginLoop v (fuel + 1) cur (some b) = ⟨[], .ok ⟨cur, v, some b⟩⟩ := by
  simp [cursor.beginLoop]

theorem cursor.beginLoop_found (v : transform_maybe_view α β) (q : Nat) (a : α) (b : β)
    (hq : v.base_.deref q = some a) (hb : v.func_ a = some b) :
    ∀ (fuel cur : Nat), cur < q → q - cur < fuel →
      (∀ j, cur ≤ j → j < q → v.base_.isEnd j = false) →
      (∀ j, cur < j → j < q → ∃ x, v.base_.deref j = some x ∧ v.func_ x = none) →
      cursor.beginLoop v fuel cur none
        = ⟨List.range' (cur + 1) (q - cur), .ok ⟨q, v, some b⟩⟩ := by
  intro fuel
  induction fuel with
  | zero => intro cur h1 h2; omega
  | succ fuel ih =>
    intro cur h1 h2 hend habs
    unfold cursor.beginLoop
    rw [hend cur (by omega) (by omega)]
    by_cases hlast : cur + 1 = q
    · subst hlast
      rw [invoke_some _ _ a hq, hb]
      obtain ⟨k, rfl⟩ : ∃ k, fuel = k + 1 := ⟨fuel - 1, by omega⟩
      simp [Exec.bind, cursor.beginLoop_present]
    · obtain ⟨x, hx, hfx⟩ := habs (cur + 1) (by omega) (by omega)
      rw [invoke_some _ _ x hx, hfx]
      have := ih (cur + 1) (by omega) (by omega)
        (fun j hj1 hj2 => hend j (by omega) hj2)
        (fun j hj1 hj2 => habs j (by omega) hj2)
      simp only [Exec.bind_mk_ok, Option.isNone_none, Bool.not_false, Bool.and_self, if_true, this]
      have e : q - cur = (q - (cur + 1)) + 1 := by omega
      rw [e, List.range'_succ]
      simp

theorem cursor.mk_begin_found (v : transform_maybe_view α β) (q : Nat) (a : α) (b : β)
    (hq : v.base_.deref q = some a) (hb : v.func_ a = some b)
    (fuel : Nat) (hfuel : q < fuel)
    (hend : ∀ j, j < q → v.base_.isEnd j = false)
    (habs : ∀ j, j < q → ∃ x, v.base_.deref j = some x ∧ v.func_ x = none) :
    cursor.mk_begin fuel v = ⟨List.range (q + 1), .ok ⟨q, v, some b⟩⟩ := by
  unfold cursor.mk_begin
  rw [List.range_eq_range', List.range'_succ]
  by_cases h0 : q = 0
  · subst h0
    rw [invoke_some _ _ a hq, hb]
    obtain ⟨k, rfl⟩ : ∃ k, fuel = k + 1 := ⟨fuel - 1, by omega⟩
    simp [Exec.bind, cursor.beginLoop_present]
  · obtain ⟨x, hx, hfx⟩ := habs 0 (by omega)
    rw [invoke_some _ _ x hx, hfx]
    have := cursor.beginLoop_found v q a b hq hb fuel 0 (by omega) (by omega)
      (fun j _ hj2 => hend j hj2) (fun j _ hj2 => habs j hj2)
    simp [Exec.bind_mk_ok, this]

theorem cursor.beginLoop_overrun (v : transform_maybe_view α β) (e : Nat)
    (he : v.base_.deref e = none) :
    ∀ (fuel cur : Nat), cur < e → e - cur ≤ fuel →
      (∀ j, cur ≤ j → j < e → v.base_.isEnd j = false) →
      (∀ j, cur < j → j < e → ∃ x, v.base_.deref j = some x ∧ v.func_ x = none) →
      cursor.beginLoop v fuel cur none = ⟨List.range' (cur + 1) (e - cur), .undefined⟩ := by
  intro fuel
  induction fuel with
  | zero => intro cur h1 h2; omega
  | succ fuel ih =>
    intro cur h1 h2 hend habs
    unfold cursor.beginLoop
    rw [hend cur (by omega) (by omega)]
    by_cases hlast : cur + 1 = e
    · subst hlast
      rw [invoke_none _ _ he]
      simp [Exec.bind]
    · obtain ⟨x, hx, hfx⟩ := habs (cur + 1) (by omega) (by omega)
      rw [invoke_some _ _ x hx, hfx]
      have := ih (cur + 1) (by omega) (by omega)
        (fun j hj1 hj2 => hend j (by omega) hj2)
        (fun j hj1 hj2 => habs j (by omega) hj2)
      simp only [Exec.bind_mk_ok, Option.isNone_none, Bool.not_false, Bool.and_self, if_true, this]
      have e1 : e - cur = (e - (cur + 1)) + 1 := by omega
      rw [e1, List.range'_succ]
      simp

theorem cursor.beginLoop_valid (v : transform_maybe_view α β) :
    ∀ (fuel cur : Nat) (result : Option β) (c : cursor α β),
      (∃ a, v.base_.deref cur = some a ∧ v.func_ a = result) →
      (cursor.beginLoop v fuel cur result).result = .ok c → cursor.Valid v c := by
  intro fuel
  induction fuel with
  | zero => intro cur result c _ h; simp [cursor.beginLoop] at h
  | succ fuel ih =>
    intro cur result c hres h
    unfold cursor.beginLoop at h
    split at h
    · obtain ⟨r, hr, hloop⟩ := Exec.bind_result_ok h
      exact ih (cur + 1) r c (invoke_result_ok hr) hloop
    · rename_i hcond
      injection h with h
      subst h
      refine ⟨rfl, ?_⟩
      obtain ⟨a, ha, hfa⟩ := hres
      cases result with
      | none => left; simpa using hcond
      | some b => right; exact ⟨a, b, ha, hfa, rfl⟩

theorem cursor.mk_begin_valid (v : transform_maybe_view α β) (fuel : Nat) (c : cursor α β)
    (h : (cursor.mk_begin fuel v).result = .ok c) : cursor.Valid v c := by
  unfold cursor.mk_begin at h
  obtain ⟨r, hr, hloop⟩ := Exec.bind_result_ok h
  exact cursor.beginLoop_valid v fuel 0 r c (invoke_result_ok hr) hloop

theorem cursor.nextLoop_valid (c : cursor α β) :
    ∀ (fuel cur : Nat) (c1 : cursor α β),
      (cursor.nextLoop c fuel cur).result = .ok c1 →
      cursor.Valid c.parent_ c1 ∧ cur < c1.current_ := by
  intro fuel
  induction fuel with
  | zero => intro cur c1 h; simp [cursor.nextLoop] at h
  | succ fuel ih =>
    intro cur c1 h
    unfold cursor.nextLoop at h
    split at h
    · rename_i hend
      injection h with h
      subst h
      exact ⟨⟨rfl, Or.inl hend⟩, Nat.lt_succ_self cur⟩
    · obtain ⟨r, hr, hrest⟩ := Exec.bind_result_ok h
      obtain ⟨a, ha, hfa⟩ := invoke_result_ok hr
      cases r with
      | none =>
        simp only [Option.isNone_none, if_true] at hrest
        have := ih (cur + 1) c1 hrest
        exact ⟨this.1, by omega⟩
      | some b =>
        simp only [Option.isNone_some, Bool.false_eq_true, if_false] at hrest
        injection hrest with hrest
        subst hrest
        exact ⟨⟨rfl, Or.inr ⟨a, b, ha, hfa, rfl⟩⟩, Nat.lt_succ_self cur⟩

theorem Reachable.valid {v : transform_maybe_view α β} {c : cursor α β}
    (h : Reachable v c) : cursor.Valid v c := by
  induction h with
  | begin fuel c hb => exact cursor.mk_begin_valid v fuel c hb
  | next fuel c c1 _ hn ih =>
    have := (cursor.nextLoop_valid c fuel c.current_ c1 hn).1
    rw [ih.1] at this
    exact this

/-! ## Finite sources -/

theorem exists_first (P : Nat → Prop) (p : Nat) :
    ∀ n, p ≤ n →
      (∃ q, p ≤ q ∧ q < n ∧ P q ∧ ∀ j, p ≤ j → j < q → ¬ P j) ∨
      (∀ j, p ≤ j → j < n → ¬ P j) := by
  intro n
  induction n with
  | zero => intro _; right; intro j _ h; omega
  | succ n ih =>
    intro hpn
    by_cases hp : p = n + 1
    · right; intro j h1 h2; omega
    · rcases ih (by omega) with ⟨q, h1, h2, h3, h4⟩ | hnone
      · left; exact ⟨q, h1, by omega, h3, h4⟩
      · by_cases hn : P n
        · left; exact ⟨n, by omega, by omega, hn, hnone⟩
        · right
          intro j h1 h2
          by_cases hj : j = n
          · subst hj; exact hn
          · exact hnone j h1 (by omega)

theorem Range.ofList_isEnd (S : List α) (j : Nat) :
    (Range.ofList S).isEnd j = true ↔ S.length = j := by
  simp [Range.ofList, Range.isEnd]

theorem Range.ofList_isEnd_of_lt (S : List α) (j : Nat) (h : j < S.length) :
    (Range.ofList S).isEnd j = false := by
  cases hj : (Range.ofList S).isEnd j with
  | false => rfl
  | true =>
    have := (Range.ofList_isEnd S j).mp hj
    omega

theorem Range.ofList_deref (S : List α) (j : Nat) :
    (Range.ofList S).deref j = S[j]? := rfl

theorem cursor.equalEnd_end (c : cursor α β) (v : transform_maybe_view α β) :
    c.equalEnd v.end_ = v.base_.isEnd c.current_ := by
  unfold transform_maybe_view.end_ cursor.mk_end Range.isEnd
  cases hc : v.base_.common <;> cases he : v.base_.endPos <;>
    simp [cursor.equalEnd, cursor.equal, cursor.equal_sentinel, he, eq_comm]

theorem absent_of_bind_none (S : List α) (F : α → Option β) (j : Nat) (hj : j < S.length)
    (h : S[j]?.bind F = none) : ∃ x, S[j]? = some x ∧ F x = none := by
  rw [List.getElem?_eq_getElem hj] at h
  exact ⟨S[j], List.getElem?_eq_getElem hj, by simpa using h⟩

theorem cursor.next_ofList (S : List α) (F : α → Option β) (c : cursor α β)
    (hpar : c.parent_ = ⟨Range.ofList S, F⟩) (hp : c.current_ < S.length)
    (fuel : Nat) (hfuel : S.length - c.current_ ≤ fuel) :
    ∃ q, c.current_ < q ∧ q ≤ S.length ∧
      (∀ j, c.current_ < j → j < q → S[j]?.bind F = none) ∧
      ((∃ b, S[q]?.bind F = some b ∧
          cursor.next fuel c
            = ⟨List.range' (c.current_ + 1) (q - c.current_), .ok ⟨q, c.parent_, some b⟩⟩) ∨
        (q = S.length ∧
          cursor.next fuel c
            = ⟨List.range' (c.current_ + 1) (q - c.current_ - 1),
                .ok ⟨q, c.parent_, c.cache_⟩⟩)) := by
  have hderef : ∀ j, c.parent_.base_.deref j = S[j]? := by intro j; rw [hpar]; rfl
  have hfun : c.parent_.func_ = F := by rw [hpar]
  have hisEnd : ∀ j, j < S.length → c.parent_.base_.isEnd j = false := by
    intro j hj; rw [hpar]; exact Range.ofList_isEnd_of_lt S j hj
  rcases exists_first (fun j => S[j]?.bind F ≠ none) (c.current_ + 1) S.length (by omega) with
    ⟨q, h1, h2, h3, h4⟩ | hnone
  · have habs : ∀ j, c.current_ < j → j < q → S[j]?.bind F = none := by
      intro j hj1 hj2
      have := h4 j (by omega) hj2
      simpa using this
    refine ⟨q, by omega, by omega, habs, Or.inl ?_⟩
    obtain ⟨b, hb⟩ := Option.ne_none_iff_exists'.mp h3
    refine ⟨b, hb, ?_⟩
    rw [List.getElem?_eq_getElem h2] at hb
    unfold cursor.next
    refine cursor.nextLoop_found c q S[q] b ?_ ?_ fuel c.current_ (by omega) (by omega) ?_ ?_
    · rw [hderef]; exact List.getElem?_eq_getElem h2
    · rw [hfun]; simpa using hb
    · intro j _ hj2; exact hisEnd j (by omega)
    · intro j hj1 hj2
      rw [hderef, hfun]
      exact absent_of_bind_none S F j (by omega) (habs j hj1 hj2)
  · have habs : ∀ j, c.current_ < j → j < S.length → S[j]?.bind F = none := by
      intro j hj1 hj2
      have := hnone j (by omega) hj2
      simpa using this
    refine ⟨S.length, hp, le_refl _, habs, Or.inr ⟨rfl, ?_⟩⟩
    unfold cursor.next
    refine cursor.nextLoop_end c S.length ?_ fuel c.current_ hp hfuel ?_ ?_
    · rw [hpar]; exact (Range.ofList_isEnd S _).mpr rfl
    · intro j _ hj2; exact hisEnd j hj2
    · intro j hj1 hj2
      rw [hderef, hfun]
      exact absent_of_bind_none S F j hj2 (habs j hj1 hj2)

theorem cursor.equalEnd_ofList (S : List α) (F : α → Option β) (c : cursor α β) :
    c.equalEnd (transform_maybe_view.end_ ⟨Range.ofList S, F⟩) = true ↔
      c.current_ = S.length := by
  rw [cursor.equalEnd_end, Range.ofList_isEnd]
  exact eq_comm

theorem cursor.Valid.le_length {S : List α} {F : α → Option β} {c : cursor α β}
    (h : cursor.Valid ⟨Range.ofList S, F⟩ c) : c.current_ ≤ S.length := by
  rcases h.2 with hend | ⟨a, _, ha, _⟩
  · exact le_of_eq ((Range.ofList_isEnd S _).mp hend).symm
  · rw [Range.ofList_deref] at ha
    have := (List.getElem?_eq_some_iff.mp ha).1
    omega

theorem cursor.nextN_reaches_end (S : List α) (F : α → Option β) (fuel : Nat)
    (hfuel : S.length ≤ fuel) :
    ∀ (d : Nat) (c : cursor α β), c.parent_ = ⟨Range.ofList S, F⟩ →
      c.current_ < S.length → S.length - c.current_ ≤ d →
      ∃ k c1, 1 ≤ k ∧ k ≤ S.length - c.current_ ∧
        (cursor.nextN fuel k c).result = .ok c1 ∧ c1.current_ = S.length := by
  intro d
  induction d with
  | zero => intro c _ h1 h2; omega
  | succ d ih =>
    intro c hpar hp hd
    obtain ⟨q, hq1, hq2, _, hcase⟩ := cursor.next_ofList S F c hpar hp fuel (by omega)
    have hstep : ∃ c1, (cursor.next fuel c).result = .ok c1 ∧ c1.current_ = q ∧
        c1.parent_ = c.parent_ := by
      rcases hcase with ⟨b, _, hn⟩ | ⟨_, hn⟩
      · exact ⟨⟨q, c.parent_, some b⟩, by rw [hn], rfl, rfl⟩
      · exact ⟨⟨q, c.parent_, c.cache_⟩, by rw [hn], rfl, rfl⟩
    obtain ⟨c1, hc1, hcur, hpar1⟩ := hstep
    by_cases hend : q = S.length
    · refine ⟨1, c1, le_refl _, by omega, ?_, by omega⟩
      simp only [cursor.nextN]
      rw [Exec.bind_ok _ _ c1 hc1]
    · obtain ⟨k, c2, hk1, hk2, hrun, hfin⟩ :=
        ih c1 (by rw [hpar1, hpar]) (by omega) (by omega)
      refine ⟨k + 1, c2, by omega, by omega, ?_, hfin⟩
      simp only [cursor.nextN]
      rw [Exec.bind_ok _ _ c1 hc1]
      exact hrun

theorem cursor.readN_cached (c : cursor α β) (b : β) (h : c.cache_ = some b) :
    ∀ k, cursor.readN k c = ⟨[], .ok (List.replicate k b, c)⟩ := by
  intro k
  induction k with
  | zero => rfl
  | succ k ih =>
    simp only [cursor.readN, cursor.read, h, Exec.bind_mk_ok, ih]
    rfl

theorem range'_glue (a b c : Nat) (h1 : a ≤ b) (h2 : b ≤ c) :
    List.range' a (b - a) ++ List.range' b (c - b) = List.range' a (c - a) := by
  have h := List.range'_append_1 a (b - a) (c - b)
  have e1 : a + (b - a) = b := by omega
  have e2 : c - b + (b - a) = c - a := by omega
  rw [e1, e2] at h
  exact h

theorem filterMap_range'_absent (G : Nat → Option β) :
    ∀ (n a : Nat), (∀ j, a ≤ j → j < a + n → G j = none) →
      (List.range' a n).filterMap G = [] := by
  intro n
  induction n with
  | zero => intro a _; rfl
  | succ n ih =>
    intro a h
    rw [List.range'_succ, List.filterMap_cons, h a (le_refl _) (by omega)]
    exact ih (a + 1) (fun j h1 h2 => h j (by omega) (by omega))

theorem filterMap_range'_first (G : Nat → Option β) (p q M : Nat) (b : β)
    (hpq : p < q) (hqM : q ≤ M) (hb : G p = some b)
    (habs : ∀ j, p < j → j < q → G j = none) :
    (List.range' p (M - p)).filterMap G = b :: (List.range' q (M - q)).filterMap G := by
  rw [← range'_glue p q M (by omega) hqM, List.filterMap_append]
  have e : q - p = (q - p - 1) + 1 := by omega
  rw [e, List.range'_succ, List.filterMap_cons, hb,
    filterMap_range'_absent G (q - p - 1) (p + 1)
      (fun j h1 h2 => habs j (by omega) (by omega))]
  rfl

theorem first_present_from (G : Nat → Option β)
    (hinf : ∀ m, ∃ i, m ≤ i ∧ (G i).isSome) (p : Nat) :
    ∃ q b, p ≤ q ∧ G q = some b ∧ ∀ j, p ≤ j → j < q → G j = none := by
  obtain ⟨i, hi1, hi2⟩ := hinf p
  rcases exists_first (fun j => G j ≠ none) p (i + 1) (by omega) with
    ⟨q, h1, _, h3, h4⟩ | hnone
  · obtain ⟨b, hb⟩ := Option.ne_none_iff_exists'.mp h3
    exact ⟨q, b, h1, hb, fun j hj1 hj2 => by simpa using h4 j hj1 hj2⟩
  · have := hnone i hi1 (by omega)
    simp only [ne_eq, not_not] at this
    rw [this] at hi2
    cases hi2

theorem cursor.takeLoop_ofStream (s : Nat → α) (F : α → Option β)
    (hinf : ∀ m, ∃ i, m ≤ i ∧ (F (s i)).isSome) :
    ∀ (N p : Nat) (b : β), F (s p) = some b →
      ∃ fuel0 M K, p ≤ M ∧ p + 1 ≤ K ∧
        ((List.range' p (M - p)).filterMap (fun i => F (s i))).length = N ∧
        ∀ fuel, fuel0 ≤ fuel →
          cursor.takeLoop fuel N ⟨p, ⟨Range.ofStream s, F⟩, some b⟩
            = ⟨List.range' (p + 1) (K - (p + 1)),
                .ok ((List.range' p (M - p)).filterMap (fun i => F (s i)))⟩ := by
  intro N
  induction N with
  | zero =>
    intro p b _
    refine ⟨0, p, p + 1, le_refl _, le_refl _, by simp, ?_⟩
    intro fuel _
    simp [cursor.takeLoop]
  | succ N ih =>
    intro p b hb
    obtain ⟨q, b1, hq, hb1, habs⟩ := first_present_from (fun i => F (s i)) hinf (p + 1)
    obtain ⟨fuel1, M, K, hM, hK, hlen, hrun⟩ := ih q b1 hb1
    have hfm := filterMap_range'_first (fun i => F (s i)) p q M b (by omega) hM hb
      (fun j h1 h2 => habs j (by omega) h2)
    refine ⟨max fuel1 (q - p), M, K, by omega, by omega, ?_, ?_⟩
    · rw [hfm, List.length_cons, hlen]
    · intro fuel hfuel
      have hnext : cursor.next fuel ⟨p, ⟨Range.ofStream s, F⟩, some b⟩
          = ⟨List.range' (p + 1) (q - p), .ok ⟨q, ⟨Range.ofStream s, F⟩, some b1⟩⟩ :=
        cursor.nextLoop_found ⟨p, ⟨Range.ofStream s, F⟩, some b⟩ q (s q) b1 rfl hb1
          fuel p (by omega) (by omega : q - p ≤ fuel)
          (fun _ _ _ => rfl)
          (fun j h1 h2 => ⟨s j, rfl, habs j (by omega) h2⟩)
      have hend : cursor.equalEnd ⟨p, ⟨Range.ofStream s, F⟩, some b⟩
          (transform_maybe_view.end_ ⟨Range.ofStream s, F⟩) = false := by
        rw [cursor.equalEnd_end]; rfl
      rw [hfm]
      simp only [cursor.takeLoop, hend, cursor.read, Exec.bind_mk_ok, hnext,
        hrun fuel (by omega)]
      simp only [Bool.false_eq_true, if_false, List.nil_append, List.append_nil]
      rw [show q - p = q + 1 - (p + 1) by omega,
        range'_glue (p + 1) (q + 1) K (by omega) hK]

theorem transform_maybe_view.begin_ofList_found (S : List α) (F : α → Option β)
    (hex : ∃ j : Nat, S[j]?.bind F ≠ none) (fuel : Nat) (hfuel : S.length ≤ fuel) :
    ∃ q b, q < S.length ∧ S[q]?.bind F = some b ∧ (∀ j, j < q → S[j]?.bind F = none) ∧
      transform_maybe_view.begin fuel ⟨Range.ofList S, F⟩
        = ⟨List.range (q + 1), .ok ⟨q, ⟨Range.ofList S, F⟩, some b⟩⟩ := by
  rcases exists_first (fun j => S[j]?.bind F ≠ none) 0 S.length (Nat.zero_le _) with
    ⟨q, _, h2, h3, h4⟩ | hnone
  · obtain ⟨b, hb⟩ := Option.ne_none_iff_exists'.mp h3
    have habs : ∀ j, j < q → S[j]?.bind F = none := fun j hj => by
      simpa using h4 j (Nat.zero_le _) hj
    refine ⟨q, b, h2, hb, habs, ?_⟩
    have hb1 := hb
    rw [List.getElem?_eq_getElem h2] at hb1
    exact cursor.mk_begin_found ⟨Range.ofList S, F⟩ q S[q] b
      (List.getElem?_eq_getElem h2) (by simpa using hb1) fuel (by omega)
      (fun j hj => Range.ofList_isEnd_of_lt S j (by omega))
      (fun j hj => absent_of_bind_none S F j (by omega) (habs j hj))
  · obtain ⟨j, hj⟩ := hex
    have hlt : j < S.length := by
      by_contra h
      rw [List.getElem?_eq_none (by omega)] at hj
      exact hj rfl
    exact absurd hj (hnone j (Nat.zero_le _) hlt)

theorem transform_maybe_view.begin_ofList_all_absent (S : List α) (F : α → Option β)
    (hnone : ∀ j : Nat, S[j]?.bind F = none) (fuel : Nat) (hfuel : S.length ≤ fuel) :
    transform_maybe_view.begin fuel ⟨Range.ofList S, F⟩
      = ⟨List.range (S.length + 1), .undefined⟩ := by
  unfold transform_maybe_view.begin cursor.mk_begin
  have hend : (Range.ofList S).deref S.length = none :=
    List.getElem?_eq_none (le_refl _)
  rw [List.range_eq_range', List.range'_succ]
  by_cases h0 : S.length = 0
  · rw [invoke_none _ _ (by rw [h0] at hend; exact hend), h0]
    rfl
  · obtain ⟨x, hx, hfx⟩ := absent_of_bind_none S F 0 (by omega) (hnone 0)
    rw [invoke_some (⟨Range.ofList S, F⟩ : transform_maybe_view α β) 0 x hx]
    have := cursor.beginLoop_overrun ⟨Range.ofList S, F⟩ S.length hend fuel 0 (by omega)
      (by omega) (fun j _ hj => Range.ofList_isEnd_of_lt S j hj)
      (fun j _ hj => absent_of_bind_none S F j hj (hnone j))
    simp only [Exec.bind_mk_ok, hfx, this]
    simp

theorem Exec.map_mk_ok {σ τ : Type} (f : σ → τ) (l : List Nat) (s : σ) :
    Exec.map f ⟨l, .ok s⟩ = ⟨l, .ok (f s)⟩ := rfl

theorem Exec.map_bind {σ τ υ : Type} (x : Exec σ) (f : σ → Exec τ) (g : τ → υ) :
    (x.bind f).map g = x.bind (fun s => (f s).map g) := by
  obtain ⟨l, r⟩ := x
  cases r with
  | ok s =>
    simp only [Exec.bind_mk_ok]
    cases hr : (f s).result <;> simp [Exec.map, hr]
  | undefined => rfl
  | timeout => rfl

theorem Exec.bind_map {σ τ υ : Type} (x : Exec σ) (g : σ → τ) (f : τ → Exec υ) :
    (x.map g).bind f = x.bind (fun s => f (g s)) := by
  obtain ⟨l, r⟩ := x
  cases r <;> rfl

theorem Exec.bind_congr {σ τ : Type} (x : Exec σ) (f g : σ → Exec τ)
    (h : ∀ s, x.result = .ok s → f s = g s) : x.bind f = x.bind g := by
  obtain ⟨l, r⟩ := x
  cases r with
  | ok s => simp only [Exec.bind_mk_ok, h s rfl]
  | undefined => rfl
  | timeout => rfl

theorem invoke_same (v w : transform_maybe_view α β)
    (hd : w.base_.deref = v.base_.deref) (hf : w.func_ = v.func_) (i : Nat) :
    invoke w i = invoke v i := by
  unfold invoke
  rw [hd, hf]

theorem Range.isEnd_same (r s : Range α) (he : s.endPos = r.endPos) (i : Nat) :
    s.isEnd i = r.isEnd i := by
  unfold Range.isEnd
  rw [he]

theorem cursor.beginLoop_same (v w : transform_maybe_view α β)
    (hd : w.base_.deref = v.base_.deref) (he : w.base_.endPos = v.base_.endPos)
    (hf : w.func_ = v.func_) :
    ∀ (fuel cur : Nat) (result : Option β),
      cursor.beginLoop w fuel cur result
        = (cursor.beginLoop v fuel cur result).map (cursor.reparent w) := by
  intro fuel
  induction fuel with
  | zero => intro cur result; rfl
  | succ fuel ih =>
    intro cur result
    simp only [cursor.beginLoop]
    rw [Range.isEnd_same v.base_ w.base_ he, invoke_same v w hd hf]
    split
    · rw [Exec.map_bind]
      exact Exec.bind_congr _ _ _ (fun r _ => ih (cur + 1) r)
    · rfl

theorem cursor.mk_begin_same (v w : transform_maybe_view α β)
    (hd : w.base_.deref = v.base_.deref) (he : w.base_.endPos = v.base_.endPos)
    (hf : w.func_ = v.func_) (fuel : Nat) :
    cursor.mk_begin fuel w = (cursor.mk_begin fuel v).map (cursor.reparent w) := by
  unfold cursor.mk_begin
  rw [invoke_same v w hd hf, Exec.map_bind]
  exact Exec.bind_congr _ _ _ (fun r _ => cursor.beginLoop_same v w hd he hf fuel 0 r)

theorem cursor.nextLoop_same (w : transform_maybe_view α β) (c : cursor α β)
    (hd : w.base_.deref = c.parent_.base_.deref)
    (he : w.base_.endPos = c.parent_.base_.endPos) (hf : w.func_ = c.parent_.func_) :
    ∀ (fuel cur : Nat),
      cursor.nextLoop (c.reparent w) fuel cur
        = (cursor.nextLoop c fuel cur).map (cursor.reparent w) := by
  intro fuel
  induction fuel with
  | zero => intro cur; rfl
  | succ fuel ih =>
    intro cur
    simp only [cursor.nextLoop]
    have hpar : (c.reparent w).parent_ = w := rfl
    rw [hpar, Range.isEnd_same c.parent_.base_ w.base_ he, invoke_same c.parent_ w hd hf]
    split
    · rfl
    · rw [Exec.map_bind]
      refine Exec.bind_congr _ _ _ (fun r _ => ?_)
      split
      · exact ih (cur + 1)
      · rfl

theorem cursor.equalEnd_end_const (c : cursor α β) (v : transform_maybe_view α β) :
    c.equalEnd v.end_const = v.base_.isEnd c.current_ := by
  unfold transform_maybe_view.end_const cursor.mk_end Range.isEnd
  cases hc : v.base_.common <;> cases he : v.base_.endPos <;>
    simp [cursor.equalEnd, cursor.equal, cursor.equal_sentinel, he, eq_comm]

theorem cursor.collectTo_same (v w : transform_maybe_view α β)
    (hd : w.base_.deref = v.base_.deref) (he : w.base_.endPos = v.base_.endPos)
    (hf : w.func_ = v.func_) (fuel : Nat) :
    ∀ (k : Nat) (c : cursor α β), c.parent_ = v →
      cursor.collectTo w.end_const fuel k (c.reparent w) = cursor.collect fuel k c := by
  intro k
  induction k with
  | zero => intro c _; rfl
  | succ k ih =>
    intro c hpar
    simp only [cursor.collectTo, cursor.collect]
    have h1 : (c.reparent w).equalEnd w.end_const = c.equalEnd c.parent_.end_ := by
      rw [cursor.equalEnd_end_const, cursor.equalEnd_end, hpar]
      exact Range.isEnd_same v.base_ w.base_ he c.current_
    rw [h1]
    split
    · rfl
    · cases hc : c.cache_ with
      | none => simp [cursor.read, cursor.reparent, hc, Exec.bind]
      | some b =>
        have r1 : (c.reparent w).read = ⟨[], .ok (b, c.reparent w)⟩ := by
          simp [cursor.read, cursor.reparent, hc]
        have r2 : c.read = ⟨[], .ok (b, c)⟩ := by simp [cursor.read, hc]
        rw [r1, r2, Exec.bind_mk_ok, Exec.bind_mk_ok]
        have hn : cursor.next fuel (c.reparent w)
            = (cursor.next fuel c).map (cursor.reparent w) :=
          cursor.nextLoop_same w c (by rw [hpar]; exact hd) (by rw [hpar]; exact he)
            (by rw [hpar]; exact hf) fuel c.current_
        simp only [hn, Exec.bind_map]
        have hb : ((cursor.next fuel c).bind fun s =>
              (cursor.collectTo w.end_const fuel k (cursor.reparent w s)).bind fun out =>
                ⟨[], .ok (b :: out)⟩)
            = ((cursor.next fuel c).bind fun c1 =>
              (cursor.collect fuel k c1).bind fun out => ⟨[], .ok (b :: out)⟩) := by
          refine Exec.bind_congr _ _ _ (fun c1 hc1 => ?_)
          have hp1 := (cursor.nextLoop_valid c fuel c.current_ c1 hc1).1.1
          rw [ih c1 (by rw [hp1, hpar])]
        rw [hb]

theorem transform_maybe_view.mutate_worked_example :
    transform_maybe_view.mutateAll aliasEven (fun x => x + 10) 6 [1, 2, 3, 4, 5]
        = ⟨[0, 1, 2, 3, 4], .ok [1, 12, 3, 14, 5]⟩ ∧
      transform_maybe_view.mutateThenTraverse aliasEven (fun x => x + 10) 6 [1, 2, 3, 4, 5]
        = ⟨[0, 1, 2, 3, 4, 0, 1, 2, 3, 4], .ok [1, 3]⟩ :=
  ⟨rfl, rfl⟩

theorem cursor.beginLoop_st_multi_pass (F : α → Option β) (items : List α) (e : Nat) :
    ∀ (fuel cur : Nat) (result : Option β),
      cursor.beginLoop_st F fuel ⟨items, false, e⟩ cur result
        = (cursor.beginLoop ⟨Range.ofList items, F⟩ fuel cur result).map
            (fun c => (c, (⟨items, false, e⟩ : Source α))) := by
  intro fuel
  induction fuel with
  | zero => intro cur result; rfl
  | succ fuel ih =>
    intro cur result
    simp only [cursor.beginLoop_st, cursor.beginLoop]
    have hv : (⟨items, false, e⟩ : Source α).view F = ⟨Range.ofList items, F⟩ := rfl
    have hi : (⟨items, false, e⟩ : Source α).incr cur = (cur + 1, ⟨items, false, e⟩) := rfl
    rw [hv, hi]
    split
    · rw [Exec.map_bind]
      exact Exec.bind_congr _ _ _ (fun r _ => ih (cur + 1) r)
    · rfl

theorem cursor.mk_begin_st_multi_pass (F : α → Option β) (items : List α) (e fuel : Nat) :
    cursor.mk_begin_st fuel F ⟨items, false, e⟩
      = (cursor.mk_begin fuel ⟨Range.ofList items, F⟩).map
          (fun c => (c, (⟨items, false, e⟩ : Source α))) := by
  unfold cursor.mk_begin_st cursor.mk_begin
  have hv : (⟨items, false, e⟩ : Source α).view F = ⟨Range.ofList items, F⟩ := rfl
  have hb : (⟨items, false, e⟩ : Source α).begin = (0, ⟨items, false, e⟩) := rfl
  rw [hv, hb, Exec.map_bind]
  exact Exec.bind_congr _ _ _ (fun r _ => cursor.beginLoop_st_multi_pass F items e fuel 0 r)

/-- The worked example of the specification: over `[1, 2, 3, 4, 5]` with
"present iff even, mapped to half the value" the traversal yields `[1, 2]` and
invokes the mapping function once on every element, in source order. -/
theorem transform_maybe_view.traverse_worked_example :
    transform_maybe_view.traverse 6 ⟨Range.ofList [1, 2, 3, 4, 5], halfEven⟩
      = ⟨[0, 1, 2, 3, 4], .ok [1, 2]⟩ :=
  rfl

/-! ## The claims -/

/-- Claim C1 (the code at a failing input): on the source `[1, 3, 5]`, where no mapped
result is present, the traversal ends in undefined behaviour: the begin
constructor dereferences position 3, the end of the source, while the list of
present results is empty. -/
theorem C1_traverse_all_absent_undefined :
    (∀ fuel, transform_maybe_view.traverse (fuel + 3) ⟨Range.ofList [1, 3, 5], halfEven⟩
        = ⟨[0, 1, 2, 3], .undefined⟩) ∧
      List.filterMap halfEven [1, 3, 5] = [] :=
  ⟨fun _ => rfl, rfl⟩

/-- Claim C2 (the code at a failing input): on the source `[1, 3]`, where no mapped
result is present, `begin()` does not produce a cursor at the end of the source:
it dereferences position 2, the end of the source, which is undefined. -/
theorem C2_begin_all_absent_undefined :
    ∀ fuel, transform_maybe_view.begin (fuel + 2) ⟨Range.ofList [1, 3], halfEven⟩
      = ⟨[0, 1, 2], .undefined⟩ :=
  fun _ => rfl

/-- Claim C3: `next()` on a cursor at a position `p` before the end of a finite
source moves it to the smallest position `q > p` whose mapped result is present
and caches that result, or to the end of the source when there is none; the
position strictly increases. -/
theorem C3_next_contract (S : List α) (F : α → Option β) (p : Nat) (cache : Option β)
    (fuel : Nat) (hp : p < S.length) (hfuel : S.length - p ≤ fuel) :
    ∃ c1, (cursor.next fuel ⟨p, ⟨Range.ofList S, F⟩, cache⟩).result = .ok c1 ∧
      p < c1.current_ ∧
      (∀ j, p < j → j < c1.current_ → S[j]?.bind F = none) ∧
      ((∃ b, S[c1.current_]?.bind F = some b ∧ c1.cache_ = some b) ∨
        c1.current_ = S.length) := by
  obtain ⟨q, hq1, _, habs, hcase⟩ :=
    cursor.next_ofList S F ⟨p, ⟨Range.ofList S, F⟩, cache⟩ rfl hp fuel hfuel
  rcases hcase with ⟨b, hb, hn⟩ | ⟨hq, hn⟩
  · exact ⟨⟨q, ⟨Range.ofList S, F⟩, some b⟩, by rw [hn], hq1, habs, Or.inl ⟨b, hb, rfl⟩⟩
  · exact ⟨⟨q, ⟨Range.ofList S, F⟩, cache⟩, by rw [hn], hq1, habs, Or.inr hq⟩

theorem C3_next_contract_witness :
    1 < [1, 2, 3, 4, 5].length ∧ [1, 2, 3, 4, 5].length - 1 ≤ 4 ∧
    ∃ c1, (cursor.next 4 ⟨1, ⟨Range.ofList [1, 2, 3, 4, 5], halfEven⟩, some 1⟩).result
        = .ok c1 ∧
      1 < c1.current_ ∧
      (∀ j, 1 < j → j < c1.current_ → [1, 2, 3, 4, 5][j]?.bind halfEven = none) ∧
      ((∃ b, [1, 2, 3, 4, 5][c1.current_]?.bind halfEven = some b ∧ c1.cache_ = some b) ∨
        c1.current_ = [1, 2, 3, 4, 5].length) :=
  ⟨by decide, by decide,
    C3_next_contract [1, 2, 3, 4, 5] halfEven 1 (some 1) 4 (by decide) (by decide)⟩

/-- Claim C4 (the code at the failing input): over the empty source `begin()` does
not return a cursor equal to `end()`: its first statement dereferences position
0, which is the end of the source, and that is undefined; so is the traversal. -/
theorem C4_begin_empty_undefined (F : α → Option β) (fuel : Nat) :
    transform_maybe_view.begin fuel ⟨Range.ofList [], F⟩ = ⟨[0], .undefined⟩ ∧
      transform_maybe_view.traverse fuel ⟨Range.ofList [], F⟩ = ⟨[0], .undefined⟩ :=
  ⟨rfl, rfl⟩

/-- Claim C5: every cursor reached by `begin()` followed by calls of `next()` that is
not at the end of the source has a cache holding a present value, the mapped
result of the source element at `current_`, and `read()` returns that value. -/
theorem C5_cache_invariant (v : transform_maybe_view α β) (c : cursor α β)
    (hr : Reachable v c) (hne : v.base_.isEnd c.current_ = false) :
    ∃ a b, v.base_.deref c.current_ = some a ∧ v.func_ a = some b ∧
      c.cache_ = some b ∧ c.read = ⟨[], .ok (b, c)⟩ := by
  rcases hr.valid.2 with hend | ⟨a, b, ha, hb, hc⟩
  · rw [hend] at hne; cases hne
  · exact ⟨a, b, ha, hb, hc, by simp [cursor.read, hc]⟩

theorem C5_cache_invariant_witness :
    Reachable ⟨Range.ofList [1, 2, 3, 4, 5], halfEven⟩
        ⟨3, ⟨Range.ofList [1, 2, 3, 4, 5], halfEven⟩, some 2⟩ ∧
      (Range.ofList [1, 2, 3, 4, 5]).isEnd 3 = false ∧
      ∃ a b, (Range.ofList [1, 2, 3, 4, 5]).deref 3 = some a ∧ halfEven a = some b ∧
        some 2 = some b ∧
        cursor.read ⟨3, ⟨Range.ofList [1, 2, 3, 4, 5], halfEven⟩, some 2⟩
          = ⟨[], .ok (b, ⟨3, ⟨Range.ofList [1, 2, 3, 4, 5], halfEven⟩, some 2⟩)⟩ :=
  ⟨Reachable.next 5 _ _ (Reachable.begin 5 _ rfl) rfl, rfl,
    C5_cache_invariant ⟨Range.ofList [1, 2, 3, 4, 5], halfEven⟩
      ⟨3, ⟨Range.ofList [1, 2, 3, 4, 5], halfEven⟩, some 2⟩
      (Reachable.next 5 _ _ (Reachable.begin 5 _ rfl) rfl) rfl⟩

/-- Claim C6: over a finite source of length `n`, from every cursor of a traversal
that is not at the end, calling `next()` repeatedly reaches a cursor equal to
`end()` after at least one and at most `n - current_` calls, whatever the
mapping function. -/
theorem C6_end_convergence (S : List α) (F : α → Option β) (c : cursor α β) (fuel : Nat)
    (hr : Reachable ⟨Range.ofList S, F⟩ c)
    (hne : c.equalEnd (transform_maybe_view.end_ ⟨Range.ofList S, F⟩) = false)
    (hfuel : S.length ≤ fuel) :
    ∃ k c1, 1 ≤ k ∧ k ≤ S.length - c.current_ ∧
      (cursor.nextN fuel k c).result = .ok c1 ∧
      c1.equalEnd (transform_maybe_view.end_ ⟨Range.ofList S, F⟩) = true := by
  have hv := hr.valid
  have hle := hv.le_length
  have hlt : c.current_ < S.length := by
    rcases Nat.lt_or_ge c.current_ S.length with h | h
    · exact h
    · have := (cursor.equalEnd_ofList S F c).mpr (by omega)
      rw [this] at hne; cases hne
  obtain ⟨k, c1, hk1, hk2, hrun, hfin⟩ :=
    cursor.nextN_reaches_end S F fuel hfuel (S.length - c.current_) c hv.1 hlt (le_refl _)
  exact ⟨k, c1, hk1, hk2, hrun, (cursor.equalEnd_ofList S F c1).mpr hfin⟩

theorem C6_end_convergence_witness :
    Reachable ⟨Range.ofList [1, 2, 3, 4, 5], halfEven⟩
        ⟨1, ⟨Range.ofList [1, 2, 3, 4, 5], halfEven⟩, some 1⟩ ∧
      cursor.equalEnd ⟨1, ⟨Range.ofList [1, 2, 3, 4, 5], halfEven⟩, some 1⟩
        (transform_maybe_view.end_ ⟨Range.ofList [1, 2, 3, 4, 5], halfEven⟩) = false ∧
      [1, 2, 3, 4, 5].length ≤ 5 ∧
      ∃ k c1, 1 ≤ k ∧ k ≤ [1, 2, 3, 4, 5].length - 1 ∧
        (cursor.nextN 5 k ⟨1, ⟨Range.ofList [1, 2, 3, 4, 5], halfEven⟩, some 1⟩).result
          = .ok c1 ∧
        c1.equalEnd (transform_maybe_view.end_ ⟨Range.ofList [1, 2, 3, 4, 5], halfEven⟩)
          = true :=
  ⟨Reachable.begin 5 _ rfl, rfl, by decide,
    C6_end_convergence [1, 2, 3, 4, 5] halfEven
      ⟨1, ⟨Range.ofList [1, 2, 3, 4, 5], halfEven⟩, some 1⟩ 5
      (Reachable.begin 5 _ rfl) rfl (by decide)⟩

/-- Claim C7: on a cursor of a traversal that is not at the end, any number of
`read()` calls in a row return the same value every time, invoke the mapping
function not once, and leave the cursor (position and cache) as it was. -/
theorem C7_read_caching (v : transform_maybe_view α β) (c : cursor α β)
    (hr : Reachable v c) (hne : v.base_.isEnd c.current_ = false) :
    ∃ b, ∀ k, cursor.readN k c = ⟨[], .ok (List.replicate k b, c)⟩ := by
  rcases hr.valid.2 with hend | ⟨_, b, _, _, hc⟩
  · rw [hend] at hne; cases hne
  · exact ⟨b, cursor.readN_cached c b hc⟩

theorem C7_read_caching_witness :
    Reachable ⟨Range.ofList [1, 2, 3, 4, 5], halfEven⟩
        ⟨1, ⟨Range.ofList [1, 2, 3, 4, 5], halfEven⟩, some 1⟩ ∧
      (Range.ofList [1, 2, 3, 4, 5]).isEnd 1 = false ∧
      ∃ b, ∀ k, cursor.readN k ⟨1, ⟨Range.ofList [1, 2, 3, 4, 5], halfEven⟩, some 1⟩
        = ⟨[], .ok (List.replicate k b,
            ⟨1, ⟨Range.ofList [1, 2, 3, 4, 5], halfEven⟩, some 1⟩)⟩ :=
  ⟨Reachable.begin 5 _ rfl, rfl,
    C7_read_caching ⟨Range.ofList [1, 2, 3, 4, 5], halfEven⟩
      ⟨1, ⟨Range.ofList [1, 2, 3, 4, 5], halfEven⟩, some 1⟩
      (Reachable.begin 5 _ (by rfl)) rfl⟩

/-- Claim C8: two cursors are equal iff their source positions are equal, whatever
their caches hold; a cursor equals a sentinel iff its position is the end
position the sentinel holds; and over sources with the same end, comparing a
cursor with the end cursor of the common source gives the same answer as
comparing it with the end sentinel of the non-common source. -/
theorem C8_equality :
    (∀ a b : cursor α β, a.equal b = true ↔ a.current_ = b.current_) ∧
    (∀ (p : Nat) (v : transform_maybe_view α β) (x y : Option β),
      cursor.equal ⟨p, v, x⟩ ⟨p, v, y⟩ = true) ∧
    (∀ (a : cursor α β) (s : basic_sentinel),
      a.equal_sentinel s = true ↔ s.end_ = some a.current_) ∧
    (∀ (d : Nat → Option α) (e : Nat) (F : α → Option β) (a : cursor α β),
      transform_maybe_view.end_ ⟨⟨d, some e, true⟩, F⟩ = .inl ⟨e, ⟨⟨d, some e, true⟩, F⟩, none⟩ ∧
      transform_maybe_view.end_ ⟨⟨d, some e, false⟩, F⟩ = .inr ⟨some e⟩ ∧
      (a.equalEnd (transform_maybe_view.end_ ⟨⟨d, some e, true⟩, F⟩) = true ↔
        a.current_ = e) ∧
      a.equalEnd (transform_maybe_view.end_ ⟨⟨d, some e, true⟩, F⟩)
        = a.equalEnd (transform_maybe_view.end_ ⟨⟨d, some e, false⟩, F⟩)) := by
  refine ⟨?_, ?_, ?_, ?_⟩
  · intro a b; simp [cursor.equal]
  · intro p v x y; simp [cursor.equal]
  · intro a s; simp [cursor.equal_sentinel]
  · intro d e F a
    refine ⟨rfl, rfl, ?_, ?_⟩
    · rw [cursor.equalEnd_end]
      simp only [Range.isEnd, beq_iff_eq, Option.some.injEq]
      exact eq_comm
    · rw [cursor.equalEnd_end, cursor.equalEnd_end]; rfl

/-- Claim C9: over an unbounded source on which the mapping function is present
infinitely often, taking the first `N` elements of the view terminates: with
enough fuel the run finishes, yields exactly `N` values, namely the present
results over the positions `0 .. M-1` of the source in source order, and the mapping
function is invoked on the positions `0 .. K-1` of the source only, once per
position and in order. -/
theorem C9_infinite_source (s : Nat → α) (F : α → Option β) (N : Nat)
    (hinf : ∀ m, ∃ i, m ≤ i ∧ (F (s i)).isSome) :
    ∃ fuel0 M K,
      ((List.range M).filterMap (fun i => F (s i))).length = N ∧
      ∀ fuel, fuel0 ≤ fuel →
        transform_maybe_view.take fuel N ⟨Range.ofStream s, F⟩
          = ⟨List.range K, .ok ((List.range M).filterMap (fun i => F (s i)))⟩ := by
  obtain ⟨q, b, _, hb, habs⟩ := first_present_from (fun i => F (s i)) hinf 0
  obtain ⟨fuel1, M, K, hM, hK, hlen, hrun⟩ := cursor.takeLoop_ofStream s F hinf N q b hb
  have hpre : (List.range M).filterMap (fun i => F (s i))
      = (List.range' q (M - q)).filterMap (fun i => F (s i)) := by
    have h := range'_glue 0 q M (by omega) hM
    simp only [Nat.sub_zero] at h
    rw [List.range_eq_range', ← h, List.filterMap_append,
      filterMap_range'_absent (fun i => F (s i)) q 0
        (fun j h1 h2 => habs j h1 (by omega))]
    rfl
  refine ⟨max fuel1 (q + 1), M, K, by rw [hpre]; exact hlen, ?_⟩
  intro fuel hfuel
  have hbegin : cursor.mk_begin fuel ⟨Range.ofStream s, F⟩
      = ⟨List.range (q + 1), .ok ⟨q, ⟨Range.ofStream s, F⟩, some b⟩⟩ :=
    cursor.mk_begin_found ⟨Range.ofStream s, F⟩ q (s q) b rfl hb fuel (by omega)
      (fun _ _ => rfl) (fun j hj => ⟨s j, rfl, habs j (by omega) hj⟩)
  unfold transform_maybe_view.take transform_maybe_view.begin
  rw [hbegin, Exec.bind_mk_ok, hrun fuel (by omega), hpre]
  congr 1
  rw [List.range_eq_range', List.range_eq_range']
  have := range'_glue 0 (q + 1) K (by omega) hK
  simpa using this

theorem C9_infinite_source_witness :
    (∀ m, ∃ i, m ≤ i ∧ (halfEven ((fun n : Nat => n) i)).isSome) ∧
    ∃ fuel0 M K,
      ((List.range M).filterMap (fun i => halfEven ((fun n : Nat => n) i))).length = 10 ∧
      ∀ fuel, fuel0 ≤ fuel →
        transform_maybe_view.take fuel 10 ⟨Range.ofStream (fun n : Nat => n), halfEven⟩
          = ⟨List.range K,
              .ok ((List.range M).filterMap (fun i => halfEven ((fun n : Nat => n) i)))⟩ :=
  ⟨fun m => ⟨2 * m, by omega, by simp [halfEven]⟩,
    C9_infinite_source (fun n : Nat => n) halfEven 10
      (fun m => ⟨2 * m, by omega, by simp [halfEven]⟩)⟩

/-- Claim C10: piping a source into the one-argument form gives the very view the
two-argument call gives, so both yield the same sequence. -/
theorem C10_pipe_equivalence (r : Range α) (f : α → Option β) :
    pipeable.pipe r (views.transform_maybe_fn f) = views.transform_maybe_fn_base r f ∧
    (views.transform_maybe_fn f).fn = bind_back views.transform_maybe_fn_base f ∧
    ∀ fuel, transform_maybe_view.traverse fuel (pipeable.pipe r (views.transform_maybe_fn f))
      = transform_maybe_view.traverse fuel (views.transform_maybe_fn_base r f) :=
  ⟨rfl, rfl, fun _ => rfl⟩

/-- Claim C11: traversing a view through `begin() const` and `end() const`
(cursor<true>) gives the same run, hence the same sequence of present values, as
traversing through the non-const `begin()` and `end()` (cursor<false>) a view
whose source has identical contents and whose mapping function is the same;
whether either source is a common range plays no role. -/
theorem C11_const_correctness (v cv : transform_maybe_view α β) (fuel : Nat)
    (hd : cv.base_.deref = v.base_.deref) (he : cv.base_.endPos = v.base_.endPos)
    (hf : cv.func_ = v.func_) :
    cv.traverse_const fuel = v.traverse fuel := by
  unfold transform_maybe_view.traverse_const transform_maybe_view.begin_const
    transform_maybe_view.traverse transform_maybe_view.begin
  rw [cursor.mk_begin_same v cv hd he hf fuel, Exec.bind_map]
  exact Exec.bind_congr _ _ _ (fun c hc =>
    cursor.collectTo_same v cv hd he hf fuel fuel c (cursor.mk_begin_valid v fuel c hc).1)

theorem C11_const_correctness_witness :
    (⟨⟨fun i => [1, 2, 3, 4, 5][i]?, some 5, false⟩, halfEven⟩ :
        transform_maybe_view Nat Nat).base_.deref
      = (⟨Range.ofList [1, 2, 3, 4, 5], halfEven⟩ : transform_maybe_view Nat Nat).base_.deref ∧
    (⟨⟨fun i => [1, 2, 3, 4, 5][i]?, some 5, false⟩, halfEven⟩ :
        transform_maybe_view Nat Nat).base_.endPos
      = (⟨Range.ofList [1, 2, 3, 4, 5], halfEven⟩ : transform_maybe_view Nat Nat).base_.endPos ∧
    (⟨⟨fun i => [1, 2, 3, 4, 5][i]?, some 5, false⟩, halfEven⟩ :
        transform_maybe_view Nat Nat).func_
      = (⟨Range.ofList [1, 2, 3, 4, 5], halfEven⟩ : transform_maybe_view Nat Nat).func_ ∧
    transform_maybe_view.traverse_const 6
        ⟨⟨fun i => [1, 2, 3, 4, 5][i]?, some 5, false⟩, halfEven⟩
      = transform_maybe_view.traverse 6 ⟨Range.ofList [1, 2, 3, 4, 5], halfEven⟩ :=
  ⟨rfl, rfl, rfl,
    C11_const_correctness ⟨Range.ofList [1, 2, 3, 4, 5], halfEven⟩
      ⟨⟨fun i => [1, 2, 3, 4, 5][i]?, some 5, false⟩, halfEven⟩ 6 rfl rfl rfl⟩

/-- Claim C13 (the code at a failing input): the cursor at position 1 of
`[1, 2, 3, 4, 5]`, whose cache holds the present value 1, is converted by the
converting constructor.  Position and parent are kept, but the cache of the
converted cursor is empty, so `read()` on it is undefined while `read()` on the
original returns 1. -/
theorem C13_const_conversion_drops_cache :
    (cursor.mk_const ⟨1, ⟨Range.ofList [1, 2, 3, 4, 5], halfEven⟩, some 1⟩).current_ = 1 ∧
    (cursor.mk_const ⟨1, ⟨Range.ofList [1, 2, 3, 4, 5], halfEven⟩, some 1⟩).parent_
      = ⟨Range.ofList [1, 2, 3, 4, 5], halfEven⟩ ∧
    (cursor.mk_const ⟨1, ⟨Range.ofList [1, 2, 3, 4, 5], halfEven⟩, some 1⟩).cache_ = none ∧
    (cursor.mk_const ⟨1, ⟨Range.ofList [1, 2, 3, 4, 5], halfEven⟩, some 1⟩).read
      = ⟨[], .undefined⟩ ∧
    cursor.read ⟨1, ⟨Range.ofList [1, 2, 3, 4, 5], halfEven⟩, some 1⟩
      = ⟨[], .ok (1, ⟨1, ⟨Range.ofList [1, 2, 3, 4, 5], halfEven⟩, some 1⟩)⟩ ∧
    Reachable ⟨Range.ofList [1, 2, 3, 4, 5], halfEven⟩
      ⟨1, ⟨Range.ofList [1, 2, 3, 4, 5], halfEven⟩, some 1⟩ :=
  ⟨rfl, rfl, rfl, rfl, rfl, Reachable.begin 5 _ (by rfl)⟩

/-- Claim C14 (the code at a failing input): on the source `[1]`, where no mapped
result is present, `begin()` invokes the mapping function on position 0 and then
on position 1, which is not an element but the end of the source, and the run is
undefined; so is the traversal. -/
theorem C14_begin_invokes_past_the_end :
    ∀ fuel, transform_maybe_view.begin (fuel + 1) ⟨Range.ofList [1], halfEven⟩
        = ⟨[0, 1], .undefined⟩ ∧
      transform_maybe_view.traverse (fuel + 1) ⟨Range.ofList [1], halfEven⟩
        = ⟨[0, 1], .undefined⟩ ∧
      [1].length = 1 :=
  fun _ => ⟨rfl, rfl, rfl⟩

/-- Claim C15 (as amended): over a multi-pass source on which some mapped result is
present, `begin()` returns the cursor at the first position whose result is
present, with that result cached, after invoking the mapping function on the
positions up to it, and leaves the source as it was; a second `begin()` on the
view returns a cursor with the same position and the same cached value after
invoking the mapping function on the same positions again. -/
theorem C15_begin_repeatable_multi_pass (items : List α) (F : α → Option β) (e fuel : Nat)
    (hex : ∃ j : Nat, items[j]?.bind F ≠ none) (hfuel : items.length ≤ fuel) :
    ∃ q b, q < items.length ∧ items[q]?.bind F = some b ∧
      (∀ j, j < q → items[j]?.bind F = none) ∧
      cursor.mk_begin_st fuel F ⟨items, false, e⟩
        = ⟨List.range (q + 1),
            .ok (⟨q, ⟨Range.ofList items, F⟩, some b⟩, ⟨items, false, e⟩)⟩ ∧
      transform_maybe_view.begin_twice_st fuel F ⟨items, false, e⟩
        = ⟨List.range (q + 1) ++ List.range (q + 1),
            .ok ((⟨q, ⟨Range.ofList items, F⟩, some b⟩,
                ⟨q, ⟨Range.ofList items, F⟩, some b⟩), ⟨items, false, e⟩)⟩ := by
  obtain ⟨q, b, hq, hb, habs, hbegin⟩ :=
    transform_maybe_view.begin_ofList_found items F hex fuel hfuel
  have h1 : cursor.mk_begin_st fuel F ⟨items, false, e⟩
      = ⟨List.range (q + 1),
          .ok (⟨q, ⟨Range.ofList items, F⟩, some b⟩, ⟨items, false, e⟩)⟩ := by
    rw [cursor.mk_begin_st_multi_pass]
    unfold transform_maybe_view.begin at hbegin
    rw [hbegin]
    rfl
  refine ⟨q, b, hq, hb, habs, h1, ?_⟩
  unfold transform_maybe_view.begin_twice_st
  rw [h1, Exec.bind_mk_ok, h1]
  simp [Exec.bind]

theorem C15_begin_repeatable_multi_pass_witness :
    (∃ j : Nat, [1, 2, 3, 4, 5][j]?.bind halfEven ≠ none) ∧ [1, 2, 3, 4, 5].length ≤ 5 ∧
    ∃ q b, q < [1, 2, 3, 4, 5].length ∧ [1, 2, 3, 4, 5][q]?.bind halfEven = some b ∧
      (∀ j, j < q → [1, 2, 3, 4, 5][j]?.bind halfEven = none) ∧
      cursor.mk_begin_st 5 halfEven ⟨[1, 2, 3, 4, 5], false, 0⟩
        = ⟨List.range (q + 1),
            .ok (⟨q, ⟨Range.ofList [1, 2, 3, 4, 5], halfEven⟩, some b⟩,
              ⟨[1, 2, 3, 4, 5], false, 0⟩)⟩ ∧
      transform_maybe_view.begin_twice_st 5 halfEven ⟨[1, 2, 3, 4, 5], false, 0⟩
        = ⟨List.range (q + 1) ++ List.range (q + 1),
            .ok ((⟨q, ⟨Range.ofList [1, 2, 3, 4, 5], halfEven⟩, some b⟩,
                ⟨q, ⟨Range.ofList [1, 2, 3, 4, 5], halfEven⟩, some b⟩),
              ⟨[1, 2, 3, 4, 5], false, 0⟩)⟩ :=
  ⟨⟨1, by decide⟩, by decide,
    C15_begin_repeatable_multi_pass [1, 2, 3, 4, 5] halfEven 0 5 ⟨1, by decide⟩ (by decide)⟩

/-- Claim C15 (as stated, refuted): over the single-pass source `1 2 3 5 8` with
"present iff even, mapped to half the value", the first `begin()` takes out 1 and
2 and returns a cursor at position 1 caching 1 after two invocations; the second
`begin()` resumes after them, takes out 3, 5 and 8 and returns a cursor at
position 4 caching 4 after three invocations.  Two successive calls do not
return equal cursors. -/
theorem C15_single_pass_counterexample :
    cursor.mk_begin_st 5 halfEven ⟨[1, 2, 3, 5, 8], true, 0⟩
        = ⟨[0, 1], .ok (⟨1, ⟨Range.ofList [1, 2, 3, 5, 8], halfEven⟩, some 1⟩,
            ⟨[1, 2, 3, 5, 8], true, 2⟩)⟩ ∧
      cursor.mk_begin_st 5 halfEven ⟨[1, 2, 3, 5, 8], true, 2⟩
        = ⟨[2, 3, 4], .ok (⟨4, ⟨Range.ofList [1, 2, 3, 5, 8], halfEven⟩, some 4⟩,
            ⟨[1, 2, 3, 5, 8], true, 5⟩)⟩ ∧
      ¬ ∃ (c1 c2 : cursor Nat Nat) (s : Source Nat) (l : List Nat),
          (transform_maybe_view.begin_twice_st 5 halfEven ⟨[1, 2, 3, 5, 8], true, 0⟩).result
            = .ok ((c1, c2), s) ∧
          (c1.current_ = c2.current_ ∨ c1.cache_ = c2.cache_ ∨
            transform_maybe_view.begin_twice_st 5 halfEven ⟨[1, 2, 3, 5, 8], true, 0⟩
              = ⟨l ++ l, .ok ((c1, c2), s)⟩) := by
  refine ⟨rfl, rfl, ?_⟩
  rintro ⟨c1, c2, s, l, hres, hor⟩
  have heval : transform_maybe_view.begin_twice_st 5 halfEven ⟨[1, 2, 3, 5, 8], true, 0⟩
      = ⟨[0, 1, 2, 3, 4],
          .ok ((⟨1, ⟨Range.ofList [1, 2, 3, 5, 8], halfEven⟩, some 1⟩,
              ⟨4, ⟨Range.ofList [1, 2, 3, 5, 8], halfEven⟩, some 4⟩),
            ⟨[1, 2, 3, 5, 8], true, 5⟩)⟩ := rfl
  rw [heval] at hres hor
  injection hres with hres
  injection hres with hpair _
  injection hpair with h1 h2
  subst h1 h2
  rcases hor with h | h | h
  · exact absurd h (by decide)
  · exact absurd h (by decide)
  · have hl := congrArg (fun x => x.calls.length) h
    simp only [List.length_cons, List.length_nil, List.length_append] at hl
    omega

/-- Claim C16 (the code at failing inputs): for every finite source, with a
mapping function that is absent everywhere, `begin()` invokes the mapping
function on the positions `0 .. length`, the last of which is the end of the
source, and the run is undefined. -/
theorem C16_begin_dereferences_end (S : List α) (k : Nat) :
    transform_maybe_view.begin (S.length + k) ⟨Range.ofList S, fun _ => (none : Option β)⟩
        = ⟨List.range (S.length + 1), .undefined⟩ ∧
      S.length ∈ List.range (S.length + 1) := by
  refine ⟨?_, by simp⟩
  refine transform_maybe_view.begin_ofList_all_absent S _ ?_ (S.length + k) (by omega)
  intro j
  cases S[j]? <;> rfl

/-- Claim C17: `next()` on a cursor at a position `p` before the end of a finite
source of length `n` returns a cursor, at a position that is at most `n`, and
every position it dereferences for the mapping function is after `p` and
strictly less than `n`. -/
theorem C17_next_safe (S : List α) (F : α → Option β) (p : Nat) (cache : Option β)
    (fuel : Nat) (hp : p < S.length) (hfuel : S.length - p ≤ fuel) :
    ∃ c1, (cursor.next fuel ⟨p, ⟨Range.ofList S, F⟩, cache⟩).result = .ok c1 ∧
      c1.current_ ≤ S.length ∧
      ∀ i ∈ (cursor.next fuel ⟨p, ⟨Range.ofList S, F⟩, cache⟩).calls,
        p < i ∧ i < S.length := by
  have hnx := cursor.next_ofList S F ⟨p, ⟨Range.ofList S, F⟩, cache⟩ rfl hp fuel hfuel
  dsimp only at hnx
  obtain ⟨q, hq1, hq2, _, hcase⟩ := hnx
  rcases hcase with ⟨b, hb, hn⟩ | ⟨hq, hn⟩
  · have hqlt : q < S.length := by
      by_contra h
      rw [List.getElem?_eq_none (by omega)] at hb
      cases hb
    refine ⟨⟨q, ⟨Range.ofList S, F⟩, some b⟩, by rw [hn], hq2, ?_⟩
    intro i hi
    rw [hn] at hi
    simp only [List.mem_range'_1] at hi
    omega
  · refine ⟨⟨q, ⟨Range.ofList S, F⟩, cache⟩, by rw [hn], hq2, ?_⟩
    intro i hi
    rw [hn] at hi
    simp only [List.mem_range'_1] at hi
    omega

theorem C17_next_safe_witness :
    3 < [1, 2, 3, 4, 5].length ∧ [1, 2, 3, 4, 5].length - 3 ≤ 2 ∧
    ∃ c1, (cursor.next 2 ⟨3, ⟨Range.ofList [1, 2, 3, 4, 5], halfEven⟩, some 2⟩).result
        = .ok c1 ∧
      c1.current_ ≤ [1, 2, 3, 4, 5].length ∧
      ∀ i ∈ (cursor.next 2 ⟨3, ⟨Range.ofList [1, 2, 3, 4, 5], halfEven⟩, some 2⟩).calls,
        3 < i ∧ i < [1, 2, 3, 4, 5].length :=
  ⟨by decide, by decide,
    C17_next_safe [1, 2, 3, 4, 5] halfEven 3 (some 2) 2 (by decide) (by decide)⟩

/-- Claim C18: on a cursor at a position of a finite source after which no mapped
result is present (the last position whose result is present), with a value in
its cache, `next()` sets the position to the end of the source and leaves the
parent and the cache as they were: the cache still holds the value `read()`
returned before the call. -/
theorem C18_next_to_end_frame (S : List α) (F : α → Option β) (p : Nat) (b : β)
    (fuel : Nat) (hp : p < S.length) (hfuel : S.length - p ≤ fuel)
    (hlast : ∀ j, p < j → j < S.length → S[j]?.bind F = none) :
    cursor.read ⟨p, ⟨Range.ofList S, F⟩, some b⟩
        = ⟨[], .ok (b, ⟨p, ⟨Range.ofList S, F⟩, some b⟩)⟩ ∧
      (cursor.next fuel ⟨p, ⟨Range.ofList S, F⟩, some b⟩).result
        = .ok ⟨S.length, ⟨Range.ofList S, F⟩, some b⟩ := by
  refine ⟨rfl, ?_⟩
  have hnx := cursor.next_ofList S F ⟨p, ⟨Range.ofList S, F⟩, some b⟩ rfl hp fuel hfuel
  dsimp only at hnx
  obtain ⟨q, hq1, hq2, _, hcase⟩ := hnx
  rcases hcase with ⟨b1, hb1, _⟩ | ⟨hq, hn⟩
  · have hqlt : q < S.length := by
      by_contra h
      rw [List.getElem?_eq_none (by omega)] at hb1
      cases hb1
    rw [hlast q hq1 hqlt] at hb1
    cases hb1
  · rw [hn, hq]

theorem C18_next_to_end_frame_witness :
    3 < [1, 2, 3, 4, 5].length ∧ [1, 2, 3, 4, 5].length - 3 ≤ 2 ∧
    (∀ j, 3 < j → j < [1, 2, 3, 4, 5].length → [1, 2, 3, 4, 5][j]?.bind halfEven = none) ∧
    (cursor.read ⟨3, ⟨Range.ofList [1, 2, 3, 4, 5], halfEven⟩, some 2⟩
        = ⟨[], .ok (2, ⟨3, ⟨Range.ofList [1, 2, 3, 4, 5], halfEven⟩, some 2⟩)⟩ ∧
      (cursor.next 2 ⟨3, ⟨Range.ofList [1, 2, 3, 4, 5], halfEven⟩, some 2⟩).result
        = .ok ⟨[1, 2, 3, 4, 5].length, ⟨Range.ofList [1, 2, 3, 4, 5], halfEven⟩, some 2⟩) :=
  have hlast : ∀ j, 3 < j → j < [1, 2, 3, 4, 5].length →
      [1, 2, 3, 4, 5][j]?.bind halfEven = none := by
    intro j h1 h2
    have h3 : j = 4 := by
      simp only [List.length_cons, List.length_nil] at h2
      omega
    subst h3
    rfl
  ⟨by decide, by decide, hlast,
    C18_next_to_end_frame [1, 2, 3, 4, 5] halfEven 3 2 2 (by decide) (by decide) hlast⟩

end tl
